import Mathlib

/-!
# Verification of the docstring formatter core (`docformatter.py`)

A shallow embedding of the docstring-formatting pipeline.  Python strings are
modelled as `List Char`; the Python string methods used by the source
(`lstrip`, `rstrip`, `strip`, `startswith`, `endswith`, `splitlines`,
`split(sep, 1)`, `rsplit(sep, 1)`, `count`, slicing) are given explicit
executable definitions with Python's semantics (whitespace and the
`isalnum` test are restricted to their ASCII behaviour, which covers every
docstring and every claim considered here).  Fallible Python operations
(`assert`, out-of-range indexing) are modelled with `Except`.

The external tokenizer is modelled by its interface: a list of token
records (kind, text, start and end positions, raw source line), exactly the
fields `format_code` consumes.
-/

namespace Docformatter

/-- Python strings, modelled as lists of characters. -/
abbrev Str := List Char

/-- Convert a Lean string literal to the `List Char` model. -/
def pystr (s : String) : Str := s.data

/-- The ASCII whitespace class of Python (`str.strip` / regex `\s`):
space, tab, newline, carriage return, vertical tab, form feed. -/
def isPySpace (c : Char) : Bool :=
  c == ' ' || c == '\t' || c == '\n' || c == '\r' ||
  c == Char.ofNat 11 || c == Char.ofNat 12

/-- Python `str.isalnum`, restricted to ASCII letters and digits. -/
def pyIsAlnum (c : Char) : Bool := c.isAlphanum

/-- Python `s.lstrip()`: drop leading whitespace. -/
def lstrip (s : Str) : Str := s.dropWhile isPySpace

/-- Python `s.rstrip()`: drop trailing whitespace. -/
def rstrip (s : Str) : Str := ((s.reverse).dropWhile isPySpace).reverse

/-- Python `s.strip()`: drop whitespace at both ends. -/
def strip (s : Str) : Str := lstrip (rstrip s)

/-- Python `s.rstrip(chars)` for an explicit character set. -/
def rstripSet (p : Char → Bool) (s : Str) : Str :=
  ((s.reverse).dropWhile p).reverse

/-- Python `s.startswith(t)`. -/
def pystartswith (s t : Str) : Bool := t.isPrefixOf s

/-- Python `s.endswith(t)`. -/
def pyendswith (s t : Str) : Bool := t.isSuffixOf s

example : lstrip (pystr "  ab ") = pystr "ab " := by decide
example : rstrip (pystr "  ab ") = pystr "  ab" := by decide
example : strip (pystr " \t a b\n") = pystr "a b" := by decide
example : pystartswith (pystr "abc") (pystr "ab") = true := by decide
example : pyendswith (pystr "abc") (pystr "bc") = true := by decide

/-- Python `s.splitlines()`, worker: `acc` holds the current line reversed.
Line breaks recognised are `\n`, `\r\n` and `\r` (the forms named by the
specification). -/
def splitlinesAux : Str → Str → List Str
  | acc, [] => [acc.reverse]
  | acc, '\r' :: '\n' :: rest =>
      acc.reverse :: (if rest.isEmpty then [] else splitlinesAux [] rest)
  | acc, '\r' :: rest =>
      acc.reverse :: (if rest.isEmpty then [] else splitlinesAux [] rest)
  | acc, '\n' :: rest =>
      acc.reverse :: (if rest.isEmpty then [] else splitlinesAux [] rest)
  | acc, c :: rest => splitlinesAux (c :: acc) rest

/-- Python `s.splitlines()`: split on line boundaries, no trailing empty
line for a trailing terminator, `[]` on the empty string. -/
def splitlines (s : Str) : List Str :=
  match s with
  | [] => []
  | _ :: _ => splitlinesAux [] s

example : splitlines (pystr "a\nb") = [pystr "a", pystr "b"] := by decide
example : splitlines (pystr "a\r\nb\n") = [pystr "a", pystr "b"] := by decide
example : splitlines (pystr "\n") = [pystr ""] := by decide
example : splitlines (pystr "") = [] := by decide
example : splitlines (pystr "a\n\nc") = [pystr "a", pystr "", pystr "c"] := by decide

/-- Python `'\n'.join(lines)`. -/
def joinNL : List Str → Str
  | [] => []
  | [l] => l
  | l :: ls => l ++ '\n' :: joinNL ls

example : joinNL [pystr "a", pystr "", pystr "c"] = pystr "a\n\nc" := by decide

/-- Python `s.split(sep, 1)` when the separator occurs: the parts before and
after the first occurrence of `sep`; `none` when `sep` does not occur. -/
def py_split1 (sep : Str) : Str → Option (Str × Str)
  | [] => if sep.isEmpty then some ([], []) else none
  | c :: cs =>
      if sep.isPrefixOf (c :: cs) then some ([], (c :: cs).drop sep.length)
      else (py_split1 sep cs).map (fun p => (c :: p.1, p.2))

/-- Python `s.rsplit(sep, 1)` when the separator occurs: the parts before
and after the last occurrence of `sep`; `none` when `sep` does not occur. -/
def py_rsplit1 (sep : Str) : Str → Option (Str × Str)
  | [] => if sep.isEmpty then some ([], []) else none
  | c :: cs =>
      match py_rsplit1 sep cs with
      | some p => some (c :: p.1, p.2)
      | none =>
          if sep.isPrefixOf (c :: cs) then some ([], (c :: cs).drop sep.length)
          else none

example : py_split1 (pystr "--") (pystr "a--b--c") = some (pystr "a", pystr "b--c") := by decide
example : py_rsplit1 (pystr "--") (pystr "a--b--c") = some (pystr "a--b", pystr "c") := by decide
example : py_split1 (pystr "--") (pystr "abc") = none := by decide

/-- Python `s.count(sub)` worker: scan with a skip counter so that counted
occurrences do not overlap, as in CPython. -/
def countAux (sub : Str) : Str → Nat → Nat
  | [], _ => 0
  | _ :: cs, Nat.succ k => countAux sub cs k
  | c :: cs, 0 =>
      if sub.isPrefixOf (c :: cs) then 1 + countAux sub cs (sub.length - 1)
      else countAux sub cs 0

/-- Python `s.count(sub)`: number of non-overlapping occurrences. -/
def pycount (s sub : Str) : Nat :=
  if sub.isEmpty then s.length + 1 else countAux sub s 0

example : pycount (pystr "aaaa") (pystr "aa") = 2 := by decide
example : pycount (pystr "abcabc") (pystr "bc") = 2 := by decide
example : pycount (pystr "abc") (pystr "zz") = 0 := by decide

/-- Python slice `l[a:b]` with `Int` endpoints: negative indices count from
the end, out-of-range endpoints are clamped. -/
def pyslice (l : Str) (a b : Int) : Str :=
  let n : Int := l.length
  let norm : Int → Nat := fun i =>
    if i < 0 then (max (n + i) 0).toNat else (min i n).toNat
  (l.take (norm b)).drop (norm a)

example : pyslice (pystr "abcdef") 1 4 = pystr "bcd" := by decide
example : pyslice (pystr "abcdef") 4 99 = pystr "ef" := by decide
example : pyslice (pystr "abcdef") (-1) 0 = pystr "" := by decide

/-- Whitespace-separated words of a string (Python `s.split()`); worker,
`acc` holds the current word reversed. -/
def pywordsAux : Str → Str → List Str
  | acc, [] => if acc.isEmpty then [] else [acc.reverse]
  | acc, c :: cs =>
      if isPySpace c then
        (if acc.isEmpty then [] else [acc.reverse]) ++ pywordsAux [] cs
      else pywordsAux (c :: acc) cs

/-- Whitespace-separated words of a string (Python `s.split()`). -/
def pywords (s : Str) : List Str := pywordsAux [] s

example : pywords (pystr "  one two\n three ") =
    [pystr "one", pystr "two", pystr "three"] := by decide
example : pywords (pystr "   ") = [] := by decide

/-- Worker for `reSubNLRuns`: `acc` holds the pending whitespace run,
reversed.  A finished run is flushed to a single space if it contains a
newline, otherwise it is kept verbatim. -/
def flushRun (acc : Str) : Str :=
  if '\n' ∈ acc then [' '] else acc.reverse

def collapseAux : Str → Str → Str
  | acc, [] => flushRun acc
  | acc, c :: cs =>
      if isPySpace c then collapseAux (c :: acc) cs
      else flushRun acc ++ c :: collapseAux [] cs

/-- Python `re.sub(r'\s*\n\s*', ' ', s)`: every maximal whitespace run that
contains a newline collapses to a single space (the regex is greedy, so a
leftmost match always swallows a whole maximal run). -/
def reSubNLRuns (s : Str) : Str := collapseAux [] s

example : reSubNLRuns (pystr "ab \n  cd") = pystr "ab cd" := by decide
example : reSubNLRuns (pystr "ab \t cd") = pystr "ab \t cd" := by decide
example : reSubNLRuns (pystr "a\n\nb") = pystr "a b" := by decide

/-- Python `re.split(r'\.\s', s, maxsplit=1)` when a match exists: the text
before the leftmost period-then-whitespace pair and the text after it (the
two matched characters are consumed); `none` when no pair occurs. -/
def re_split_dot_ws : Str → Option (Str × Str)
  | [] => none
  | c :: rest =>
      if c = '.' then
        match rest with
        | [] => none
        | d :: rest2 =>
            if isPySpace d then some ([], rest2)
            else (re_split_dot_ws rest).map (fun p => (c :: p.1, p.2))
      else (re_split_dot_ws rest).map (fun p => (c :: p.1, p.2))

example : re_split_dot_ws (pystr "Do it. Then more.") =
    some (pystr "Do it", pystr "Then more.") := by decide
example : re_split_dot_ws (pystr "no separator") = none := by decide
example : re_split_dot_ws (pystr ".. x") = some (pystr ".", pystr "x") := by decide

/-- Greedy word-wrap worker: `cur` is the line being filled; a word joins it
when the line stays within `width`, otherwise the line is emitted and a new
line starts with the subsequent indent. -/
def wrapWords (width : Nat) (si : Str) : Str → List Str → List Str
  | cur, [] => [cur]
  | cur, w :: ws =>
      if cur.length + 1 + w.length ≤ width then
        wrapWords width si (cur ++ ' ' :: w) ws
      else cur :: wrapWords width si (si ++ w) ws

/-- Modelled from the spec: the external `textwrap.wrap` capability, which
is not part of this repository.  Per the spec (§4.2, §6): word-wrap the
text to the given column width, placing the initial indent on the first
produced line and the subsequent indent on the later ones. -/
def textwrap_wrap (text : Str) (width : Nat) (ii si : Str) : List Str :=
  match pywords text with
  | [] => []
  | w :: ws => wrapWords width si (ii ++ w) ws

example : textwrap_wrap (pystr "one two three four") 9 (pystr "") (pystr "") =
    [pystr "one two", pystr "three", pystr "four"] := by decide

/-! ## The source functions of `docformatter.py` -/

/-- The single-quote character. -/
def squote : Char := Char.ofNat 39

/-- The triple double-quote delimiter. -/
def tripleD : Str := ['\"', '\"', '\"']

/-- The triple single-quote delimiter. -/
def tripleS : Str := [squote, squote, squote]

/-- Python exceptions that the embedded code can raise. -/
inductive PyErr where
  | assertionError : PyErr
  | indexError : PyErr
deriving DecidableEq

deriving instance DecidableEq for Except

/-- True when an `Except` value is a normal return. -/
def exOk {α : Type} : Except PyErr α → Bool
  | .ok _ => true
  | .error _ => false

/-- The formatting options of `format_code` / `format_docstring`. -/
structure Opts where
  summary_wrap_length : Int
  pre_summary_newline : Bool
  post_description_blank : Bool
deriving DecidableEq

/-- `starts_with_triple` (docformatter.py:91-94): the stripped string
starts with triple double or triple single quotes. -/
def starts_with_triple (string : Str) : Bool :=
  pystartswith (strip string) tripleD || pystartswith (strip string) tripleS

/-- `wrap_summary` (docformatter.py:205-215): when `wrap_length > 0`, join
the wrapped lines with newlines and strip the result; otherwise return the
text unchanged. -/
def wrap_summary (summary ii si : Str) (wrap_length : Int) : Str :=
  if 0 < wrap_length then
    strip (joinNL (textwrap_wrap summary wrap_length.toNat ii si))
  else summary

/-- `normalize_summary` (docformatter.py:193-202): right-strip, collapse
newline-containing whitespace runs, and append a period when the result
ends in an alphanumeric character. -/
def normalize_summary (summary : Str) : Str :=
  let s := reSubNLRuns (rstrip summary)
  if (match s.getLast? with | some c => pyIsAlnum c | none => false) then
    s ++ ['.']
  else s

example : normalize_summary (pystr "Hello\n   world") = pystr "Hello world." := by decide
example : normalize_summary (pystr "Done!") = pystr "Done!" := by decide

/-- The specification's reading of `normalize_summary`, for comparison:
collapse the newline runs first, right-trim the result, then append the
period exactly when the result is non-empty with an alphanumeric last
character. -/
def normalize_summary_spec (summary : Str) : Str :=
  let s := rstrip (reSubNLRuns summary)
  if (match s.getLast? with | some c => pyIsAlnum c | none => false) then
    s ++ ['.']
  else s

/-- `indent_non_indented` (docformatter.py:153-158). -/
def indent_non_indented (line indentation : Str) : Str :=
  if lstrip line = line then indentation ++ line else line

/-- `strip_docstring` (docformatter.py:183-190): slice out the text between
the first and last occurrence of the detected triple-quote delimiter and
strip it.  The Python `assert` (a `'''`-opened docstring must close with
`'''`) raises `AssertionError`; indexing `split(triple, 1)[1]` when the
delimiter is absent raises `IndexError`. -/
def strip_docstring (docstring : Str) : Except PyErr Str :=
  let triple := if pystartswith (lstrip docstring) tripleS then tripleS else tripleD
  if pystartswith (lstrip docstring) tripleS &&
      !(pyendswith (rstrip docstring) tripleS) then
    .error .assertionError
  else
    match py_split1 triple docstring with
    | none => .error .indexError
    | some (_, after) =>
        .ok (strip (match py_rsplit1 triple after with
                    | some (before2, _) => before2
                    | none => after))

example : strip_docstring (pystr "\"\"\"  Hi there.  \"\"\"") = .ok (pystr "Hi there.") := by decide
example : strip_docstring (tripleS ++ pystr " x " ++ tripleS) = .ok (pystr "x") := by decide
example : strip_docstring (tripleS ++ pystr " x ") = .error .assertionError := by decide

/-- Python `s[0]`: the first character, or `IndexError` on the empty
string. -/
def pyindex0 (s : Str) : Except PyErr Char :=
  match s with
  | [] => .error .indexError
  | c :: _ => .ok c

/-- The sentence branch of `split_summary_and_description`
(docformatter.py:174-180): split on the regex `\.\s` with `maxsplit=1`. -/
def splitSentence (contents : Str) : Except PyErr (Str × Str) :=
  match re_split_dot_ws contents with
  | some (a, b) => .ok (strip a ++ ['.'], strip b)
  | none => .ok (strip contents, [])

/-- `split_summary_and_description` (docformatter.py:161-180): blank second
line rule, then leading-symbol rule (which indexes the stripped second
line), then the first-sentence rule. -/
def split_summary_and_description (contents : Str) : Except PyErr (Str × Str) :=
  let split := splitlines contents
  if 1 < split.length ∧ strip (split.getD 1 []) = [] then
    .ok (split.getD 0 [], joinNL (split.drop 2))
  else if 1 < split.length then
    match pyindex0 (strip (split.getD 1 [])) with
    | .error e => .error e
    | .ok c =>
        if ¬ (pyIsAlnum c = true) then
          .ok (split.getD 0 [], joinNL (split.drop 1))
        else splitSentence contents
  else splitSentence contents

example : split_summary_and_description (pystr "Summary line.\n\nBody text here.") =
    .ok (pystr "Summary line.", pystr "Body text here.") := by decide
example : split_summary_and_description (pystr "Do the thing. Then explain more.") =
    .ok (pystr "Do the thing.", pystr "Then explain more.") := by decide
example : split_summary_and_description (pystr "Head\n- item\n- item") =
    .ok (pystr "Head", pystr "- item\n- item") := by decide
example : split_summary_and_description (pystr "a.\nb") =
    .ok (pystr "a.", pystr "b") := by decide

/-- `format_docstring` (docformatter.py:97-150): strip the delimiters, give
up when the content still holds `\"\"\"`, split into summary and
description, and reassemble per the options. -/
def format_docstring (indentation docstring : Str) (opts : Opts) : Except PyErr Str :=
  match strip_docstring docstring with
  | .error e => .error e
  | .ok contents =>
    if pycount contents tripleD ≠ 0 then .ok docstring
    else
      match split_summary_and_description contents with
      | .error e => .error e
      | .ok (summary, description) =>
        if description ≠ [] then
          let initial_indent :=
            if opts.pre_summary_newline then indentation
            else pystr "   " ++ indentation
          .ok (tripleD ++
            (if opts.pre_summary_newline then '\n' :: indentation else []) ++
            lstrip (wrap_summary (normalize_summary summary) initial_indent
                      indentation opts.summary_wrap_length) ++
            pystr "\n\n" ++
            joinNL ((splitlines description).map
                      (fun l => rstrip (indent_non_indented l indentation))) ++
            (if opts.post_description_blank then ['\n'] else []) ++
            '\n' :: indentation ++ tripleD)
        else
          .ok (strip (wrap_summary (tripleD ++ normalize_summary contents ++ tripleD)
                        indentation indentation opts.summary_wrap_length))

example :
    format_docstring (pystr "    ") (pystr "\"\"\"   Hello world   \"\"\"")
      ⟨0, false, true⟩ = .ok (pystr "\"\"\"Hello world.\"\"\"") := by decide

example :
    format_docstring (pystr "    ") (pystr "\"\"\"Hello.\n\nMore stuff.\"\"\"")
      ⟨0, false, true⟩ =
      .ok (pystr "\"\"\"Hello.\n\n    More stuff.\n\n    \"\"\"") := by decide

/-! ## The token-stream reconstructor (`format_code`)

The tokenizer is an external collaborator; `format_code` consumes its
output, an ordered list of token records.  Token kinds other than `STRING`
and `INDENT` are never distinguished by the source, so they collapse to
`OTHER`. -/

/-- The token kinds `format_code` distinguishes. -/
inductive TokenType where
  | STRING : TokenType
  | INDENT : TokenType
  | OTHER : TokenType
deriving DecidableEq

/-- A token record as produced by `tokenize.generate_tokens`: kind, text,
start `(row, column)`, end `(row, column)`, and the raw source line the
token was sliced from. -/
structure Token where
  type : TokenType
  string : Str
  startRow : Nat
  startCol : Nat
  endRow : Nat
  endCol : Nat
  line : Str
deriving DecidableEq

/-- A token with no information, used only as a `getD` default. -/
def dummyToken : Token := ⟨.OTHER, [], 0, 0, 0, 0, []⟩

/-- The loop state of `format_code` (docformatter.py:43-47), without the
accumulated output: previous token text and kind, previous raw line, last
end row and column. -/
structure St where
  prevTokenString : Str
  prevTokenType : Option TokenType
  prevLine : Str
  lastRow : Nat
  lastCol : Int
deriving DecidableEq

/-- The initial loop state (docformatter.py:43-47): `last_column = -1`. -/
def initSt : St := ⟨[], none, [], 0, -1⟩

/-- The character set of `previous_line.rstrip(' \t\n\r\\')`
(docformatter.py:61). -/
def contChar (c : Char) : Bool :=
  c == ' ' || c == '\t' || c == '\n' || c == '\r' || c == '\\'

/-- The escaped-newline re-emission (docformatter.py:55-61): when the
previous line is not a comment line, the token starts on a later row, and
the previous line ends in a line-continuation backslash, re-emit the
trailing whitespace/backslash segment of the previous line. -/
def escGap (st : St) (t : Token) : Str :=
  if !(pystartswith (lstrip st.prevLine) ['#']) &&
      decide (st.lastRow < t.startRow) &&
      (pyendswith st.prevLine (pystr "\\\n") ||
       pyendswith st.prevLine (pystr "\\\r\n") ||
       pyendswith st.prevLine (pystr "\\\r")) then
    st.prevLine.drop (rstripSet contChar st.prevLine).length
  else []

/-- The inter-token spacing re-emission (docformatter.py:63-67): reset the
column cursor on a new row, then copy the raw line between the cursor and
the token start. -/
def spacingGap (st : St) (t : Token) : Str :=
  let lc : Int := if st.lastRow < t.startRow then 0 else st.lastCol
  if lc < (t.startCol : Int) then pyslice t.line lc (t.startCol : Int) else []

/-- The docstring classifier (docformatter.py:69-71): a `STRING` token
whose text starts with a triple quote, directly after an `INDENT` token. -/
def isDocstringTok (st : St) (t : Token) : Bool :=
  decide (t.type = TokenType.STRING) && starts_with_triple t.string &&
    decide (st.prevTokenType = some TokenType.INDENT)

/-- The text emitted for the token itself (docformatter.py:69-79): the
transformed docstring for a classified docstring token, the raw token text
otherwise. -/
def bodyOf (opts : Opts) (st : St) (t : Token) : Except PyErr Str :=
  if isDocstringTok st t then
    format_docstring st.prevTokenString t.string opts
  else .ok t.string

/-- Everything `format_code` emits for one token: escaped-newline segment,
inter-token spacing, then the token body. -/
def chunkOf (opts : Opts) (st : St) (t : Token) : Except PyErr Str :=
  (bodyOf opts st t).map (fun b => escGap st t ++ spacingGap st t ++ b)

/-- The state update at the end of each loop iteration
(docformatter.py:81-86). -/
def step (_st : St) (t : Token) : St :=
  ⟨t.string, some t.type, t.line, t.endRow, (t.endCol : Int)⟩

/-- The loop of `format_code` (docformatter.py:48-86), with the
accumulated output threaded explicitly; an exception raised by
`format_docstring` aborts the whole reconstruction. -/
def format_code_loop (opts : Opts) : St → Str → List Token → Except PyErr Str
  | _, acc, [] => .ok acc
  | st, acc, t :: ts =>
      -- the two gap segments and the token body, appended in source order
      match bodyOf opts st t with
      | .error e => .error e
      | .ok b =>
          format_code_loop opts (step st t)
            (acc ++ (escGap st t ++ spacingGap st t ++ b)) ts

/-- `format_code` (docformatter.py:32-88) over the token stream produced by
the external tokenizer for the source text. -/
def format_code (tokens : List Token) (opts : Opts) : Except PyErr Str :=
  format_code_loop opts initSt [] tokens

/-- The per-token chunks of `format_code`, in stream order. -/
def chunksFrom (opts : Opts) : St → List Token → List (Except PyErr Str)
  | _, [] => []
  | st, t :: ts => chunkOf opts st t :: chunksFrom opts (step st t) ts

/-- The chunks of the verbatim reconstruction: same gaps, but every token
body is the raw token text.  Under the tokenizer interface contract (§6),
concatenating these chunks gives back the input text. -/
def chunksVerbatim : St → List Token → List Str
  | _, [] => []
  | st, t :: ts =>
      (escGap st t ++ spacingGap st t ++ t.string) :: chunksVerbatim (step st t) ts

/-- The loop states of `format_code`, in stream order (`(statesFrom st
ts)[i]` is the state at the start of iteration `i`). -/
def statesFrom : St → List Token → List St
  | _, [] => []
  | st, t :: ts => st :: statesFrom (step st t) ts

/-- Concatenate chunks, propagating the first exception. -/
def joinChunks : List (Except PyErr Str) → Except PyErr Str
  | [] => .ok []
  | c :: cs =>
      match c with
      | .error e => .error e
      | .ok s =>
          match joinChunks cs with
          | .error e => .error e
          | .ok rest => .ok (s ++ rest)

/-! ## Supporting lemmas -/

theorem splitSentence_ok (s : Str) : exOk (splitSentence s) = true := by
  unfold splitSentence
  cases h : re_split_dot_ws s with
  | none => rfl
  | some p => cases p; rfl

theorem countAux_ne_zero_iff {sub : Str} (hsub : sub ≠ []) :
    ∀ s : Str, countAux sub s 0 ≠ 0 ↔ sub <:+: s := by
  intro s
  induction s with
  | nil =>
      simp only [countAux, List.infix_nil]
      exact ⟨fun h => absurd rfl h, fun h => absurd h hsub⟩
  | cons c cs ih =>
      by_cases hp : sub.isPrefixOf (c :: cs)
      · constructor
        · intro _
          exact (List.isPrefixOf_iff_prefix.mp hp).isInfix
        · intro _
          simp [countAux, hp]
      · have hred : countAux sub (c :: cs) 0 = countAux sub cs 0 := by
          simp [countAux, hp]
        rw [hred, ih]
        constructor
        · exact List.infix_cons
        · intro h
          rcases List.infix_cons_iff.mp h with h2 | h2
          · exact absurd (List.isPrefixOf_iff_prefix.mpr h2) hp
          · exact h2

theorem pycount_ne_zero_iff {sub : Str} (hsub : sub ≠ []) (s : Str) :
    pycount s sub ≠ 0 ↔ sub <:+: s := by
  unfold pycount
  rw [if_neg (by simpa using hsub)]
  exact countAux_ne_zero_iff hsub s

theorem py_split1_isSome_of_lstrip_prefix {sep : Str} (hsep : sep ≠ []) :
    ∀ d : Str, pystartswith (lstrip d) sep = true → (py_split1 sep d).isSome = true := by
  intro d
  induction d with
  | nil =>
      intro h
      simp only [pystartswith, lstrip, List.dropWhile_nil] at h
      cases sep with
      | nil => exact absurd rfl hsep
      | cons a as => simp [List.isPrefixOf] at h
  | cons c cs ih =>
      intro h
      by_cases hp : sep.isPrefixOf (c :: cs)
      · simp [py_split1, hp]
      · by_cases hsp : isPySpace c
        · have h2 : pystartswith (lstrip cs) sep = true := by
            simpa [pystartswith, lstrip, List.dropWhile_cons, hsp] using h
          have h3 := ih h2
          simp only [py_split1, hp, if_neg, if_false]
          cases hps : py_split1 sep cs with
          | none => rw [hps] at h3; simp at h3
          | some p => simp [hp, hps]
        · have hls : lstrip (c :: cs) = c :: cs := by
            simp [lstrip, List.dropWhile_cons, hsp]
          rw [hls] at h
          exact absurd h (by simpa [pystartswith] using hp)

theorem rstripSet_decomp (p : Char → Bool) (s : Str) :
    s = rstripSet p s ++ (s.reverse.takeWhile p).reverse := by
  unfold rstripSet
  rw [← List.reverse_append, List.takeWhile_append_dropWhile, List.reverse_reverse]

theorem drop_rstripSet (p : Char → Bool) (s : Str) :
    s.drop (rstripSet p s).length = (s.reverse.takeWhile p).reverse :=
  calc s.drop (rstripSet p s).length
      = (rstripSet p s ++ (s.reverse.takeWhile p).reverse).drop
          (rstripSet p s).length := by rw [← rstripSet_decomp]
    _ = (s.reverse.takeWhile p).reverse := List.drop_left _ _

theorem rstripSet_append_drop (p : Char → Bool) (s : Str) :
    rstripSet p s ++ s.drop (rstripSet p s).length = s := by
  rw [drop_rstripSet]
  exact (rstripSet_decomp p s).symm

theorem drop_rstripSet_reverse (p : Char → Bool) (s : Str) :
    (s.drop (rstripSet p s).length).reverse = s.reverse.takeWhile p := by
  rw [drop_rstripSet, List.reverse_reverse]

theorem prefix_takeWhile {p : Char → Bool} :
    ∀ a l : Str, (∀ c ∈ a, p c = true) → a <+: l → a <+: l.takeWhile p := by
  intro a
  induction a with
  | nil => intro l _ _; exact List.nil_prefix
  | cons c a2 ih =>
      intro l hall hpre
      cases l with
      | nil => exact absurd hpre (by simp)
      | cons d l2 =>
          obtain ⟨t, ht⟩ := hpre
          injection ht with h1 h2
          subst h1
          have hpc : p c = true := hall c (by simp)
          rw [List.takeWhile_cons, if_pos hpc]
          obtain ⟨t2, ht2⟩ := ih l2 (fun x hx => hall x (by simp [hx])) ⟨t, h2⟩
          exact ⟨t2, by rw [List.cons_append, ht2]⟩

theorem endswith_drop_rstripSet {s t : Str} (hall : ∀ c ∈ t.reverse, contChar c = true)
    (h : pyendswith s t = true) :
    pyendswith (s.drop (rstripSet contChar s).length) t = true := by
  simp only [pyendswith, List.isSuffixOf_iff_suffix] at h ⊢
  have h1 : t.reverse <+: s.reverse := by rwa [← List.reverse_prefix] at h
  have h2 : t.reverse <+: (s.drop (rstripSet contChar s).length).reverse := by
    rw [drop_rstripSet_reverse]
    exact prefix_takeWhile t.reverse s.reverse hall h1
  rwa [List.reverse_prefix] at h2

theorem format_code_loop_eq_chunks (opts : Opts) :
    ∀ (ts : List Token) (st : St) (acc : Str),
      format_code_loop opts st acc ts =
        match joinChunks (chunksFrom opts st ts) with
        | .error e => .error e
        | .ok r => .ok (acc ++ r) := by
  intro ts
  induction ts with
  | nil => intro st acc; simp [format_code_loop, chunksFrom, joinChunks]
  | cons t ts ih =>
      intro st acc
      simp only [format_code_loop, chunksFrom, joinChunks, chunkOf]
      cases hb : bodyOf opts st t with
      | error e => simp [Except.map]
      | ok b =>
          simp only [Except.map]
          rw [ih (step st t) (acc ++ (escGap st t ++ spacingGap st t ++ b))]
          cases joinChunks (chunksFrom opts (step st t) ts) with
          | error e => rfl
          | ok rest => simp [List.append_assoc]

theorem chunksVerbatim_length :
    ∀ (ts : List Token) (st : St), (chunksVerbatim st ts).length = ts.length := by
  intro ts
  induction ts with
  | nil => intro st; rfl
  | cons t ts ih => intro st; simp [chunksVerbatim, ih]

theorem chunks_agree (opts : Opts) :
    ∀ (ts : List Token) (st : St) (i : Nat), i < ts.length →
      isDocstringTok ((statesFrom st ts).getD i initSt) (ts.getD i dummyToken) = false →
      (chunksFrom opts st ts).getD i (.error .indexError) =
        .ok ((chunksVerbatim st ts).getD i []) := by
  intro ts
  induction ts with
  | nil => intro st i hi _; exact absurd hi (by simp)
  | cons t ts ih =>
      intro st i hi hdoc
      cases i with
      | zero =>
          simp only [statesFrom, List.getD_cons_zero] at hdoc
          simp only [chunksFrom, chunksVerbatim, List.getD_cons_zero]
          simp [chunkOf, bodyOf, hdoc, Except.map]
      | succ n =>
          simp only [statesFrom, List.getD_cons_succ] at hdoc
          simp only [chunksFrom, chunksVerbatim, List.getD_cons_succ]
          exact ih (step st t) n (by simpa using hi) hdoc

theorem re_split_dot_ws_eq_some :
    ∀ (s a b : Str), re_split_dot_ws s = some (a, b) →
      ∃ c, isPySpace c = true ∧ s = a ++ '.' :: c :: b ∧
        re_split_dot_ws a = none := by
  intro s
  induction s with
  | nil => intro a b h; simp [re_split_dot_ws] at h
  | cons x rest ih =>
      intro a b h
      by_cases hx : x = '.'
      · subst hx
        cases rest with
        | nil => simp [re_split_dot_ws] at h
        | cons d rest2 =>
            by_cases hd : isPySpace d = true
            · rw [show re_split_dot_ws ('.' :: d :: rest2) = some ([], rest2) from by
                    simp [re_split_dot_ws, hd]] at h
              injection h with h
              injection h with ha hb
              refine ⟨d, hd, ?_, ?_⟩
              · rw [← ha, ← hb]; rfl
              · rw [← ha]; rfl
            · rw [show re_split_dot_ws ('.' :: d :: rest2) =
                    (re_split_dot_ws (d :: rest2)).map
                      (fun p => ('.' :: p.1, p.2)) from by
                    simp [re_split_dot_ws, hd]] at h
              cases hr : re_split_dot_ws (d :: rest2) with
              | none => rw [hr] at h; simp at h
              | some p =>
                  rw [hr] at h
                  cases p with
                  | mk a2 b2 =>
                      simp only [Option.map] at h
                      injection h with h
                      injection h with ha hb
                      obtain ⟨c, hc, hsplit, hnone⟩ := ih a2 b2 hr
                      refine ⟨c, hc, ?_, ?_⟩
                      · rw [← ha, ← hb, List.cons_append, ← hsplit]
                      · rw [← ha]
                        cases ha2 : a2 with
                        | nil => simp [re_split_dot_ws]
                        | cons e a3 =>
                            have h1 : d = e := by
                              rw [ha2] at hsplit
                              injection hsplit with h1 _
                            subst h1
                            rw [ha2] at hnone
                            rw [show re_split_dot_ws ('.' :: d :: a3) =
                                  (re_split_dot_ws (d :: a3)).map
                                    (fun p => ('.' :: p.1, p.2)) from by
                                  simp [re_split_dot_ws, hd]]
                            rw [hnone]
                            rfl
      · rw [show re_split_dot_ws (x :: rest) =
              (re_split_dot_ws rest).map (fun p => (x :: p.1, p.2)) from by
              simp [re_split_dot_ws, hx]] at h
        cases hr : re_split_dot_ws rest with
        | none => rw [hr] at h; simp at h
        | some p =>
            rw [hr] at h
            cases p with
            | mk a2 b2 =>
                simp only [Option.map] at h
                injection h with h
                injection h with ha hb
                obtain ⟨c, hc, hsplit, hnone⟩ := ih a2 b2 hr
                refine ⟨c, hc, ?_, ?_⟩
                · rw [← ha, ← hb, List.cons_append, ← hsplit]
                · rw [← ha]
                  simp [re_split_dot_ws, hx, hnone]

theorem re_split_dot_ws_eq_none :
    ∀ (s : Str), re_split_dot_ws s = none →
      ∀ u c v, s = u ++ '.' :: c :: v → isPySpace c = false := by
  intro s
  induction s with
  | nil =>
      intro _ u c v he
      cases u <;> simp at he
  | cons x rest ih =>
      intro h u c v he
      cases u with
      | nil =>
          injection he with h1 h2
          subst h1
          subst h2
          by_contra hc
          have hc2 : isPySpace c = true := by
            cases hcs : isPySpace c
            · exact absurd hcs hc
            · rfl
          have hsome : re_split_dot_ws ('.' :: c :: v) = some ([], v) := by
            simp [re_split_dot_ws, hc2]
          rw [hsome] at h
          exact Option.noConfusion h
      | cons y u2 =>
          injection he with h1 h2
          subst h1
          have hrest : re_split_dot_ws rest = none := by
            by_cases hx : x = '.'
            · subst hx
              cases hr2 : rest with
              | nil => rfl
              | cons d rest2 =>
                  rw [hr2] at h
                  by_cases hd : isPySpace d = true
                  · have hsome : re_split_dot_ws ('.' :: d :: rest2) =
                        some ([], rest2) := by
                      simp [re_split_dot_ws, hd]
                    rw [hsome] at h
                    exact Option.noConfusion h
                  · rw [show re_split_dot_ws ('.' :: d :: rest2) =
                          (re_split_dot_ws (d :: rest2)).map
                            (fun p => ('.' :: p.1, p.2)) from by
                          simp [re_split_dot_ws, hd]] at h
                    cases hri : re_split_dot_ws (d :: rest2) with
                    | none => rfl
                    | some p => rw [hri] at h; simp at h
            · rw [show re_split_dot_ws (x :: rest) =
                    (re_split_dot_ws rest).map (fun p => (x :: p.1, p.2)) from by
                    simp [re_split_dot_ws, hx]] at h
              cases hri : re_split_dot_ws rest with
              | none => rfl
              | some p => rw [hri] at h; simp at h
          exact ih hrest u2 c v h2

theorem dropWhile_head_false {p : Char → Bool} {l : List Char} {e : Char}
    {u : List Char} (h : l.dropWhile p = e :: u) : p e = false := by
  have h2 := List.head?_dropWhile_not p l
  rw [h] at h2
  simpa using h2

theorem rstrip_cons_nonspace {c : Char} (hc : isPySpace c = false) (t : Str) :
    rstrip (c :: t) = c :: rstrip t := by
  unfold rstrip
  rw [List.reverse_cons, List.dropWhile_append]
  by_cases h : (List.dropWhile isPySpace t.reverse).isEmpty
  · rw [if_pos h]
    have h2 : List.dropWhile isPySpace t.reverse = [] := by
      simpa [List.isEmpty_iff] using h
    simp [List.dropWhile_cons, hc, h2]
  · rw [if_neg h, List.reverse_append]
    simp

theorem rstrip_append_of_ne {a b : Str} (h : rstrip b ≠ []) :
    rstrip (a ++ b) = a ++ rstrip b := by
  unfold rstrip at h ⊢
  rw [List.reverse_append, List.dropWhile_append]
  have h2 : ¬ (List.dropWhile isPySpace b.reverse).isEmpty = true := by
    intro hh
    exact h (by rw [List.isEmpty_iff.mp hh]; rfl)
  rw [if_neg h2, List.reverse_append, List.reverse_reverse]

theorem rstrip_allspace {s : Str} (h : ∀ c ∈ s, isPySpace c = true) :
    rstrip s = [] := by
  unfold rstrip
  rw [List.dropWhile_eq_nil_iff.mpr (fun x hx => h x (List.mem_reverse.mp hx))]
  rfl

theorem rstrip_eq_self_of_last_nonspace {s : Str} {c : Char}
    (hc : s.getLast? = some c) (hns : isPySpace c = false) : rstrip s = s := by
  unfold rstrip
  cases hrev : s.reverse with
  | nil =>
      rw [List.reverse_eq_nil_iff.mp hrev] at hc
      exact absurd hc (by simp)
  | cons e x =>
      have he : e = c := by
        have h2 := List.head?_reverse s
        rw [hrev, hc] at h2
        injection h2
      subst he
      rw [List.dropWhile_cons, hns]
      rw [if_neg (by simp), ← hrev, List.reverse_reverse]

theorem collapseAux_space_run :
    ∀ (r : Str), (∀ c ∈ r, isPySpace c = true) →
      ∀ (acc t : Str), collapseAux acc (r ++ t) = collapseAux (r.reverse ++ acc) t := by
  intro r
  induction r with
  | nil => intro _ acc t; simp
  | cons c r2 ih =>
      intro hall acc t
      have hc : isPySpace c = true := hall c (by simp)
      rw [show collapseAux acc (c :: r2 ++ t) = collapseAux (c :: acc) (r2 ++ t) from by
            simp [collapseAux, hc]]
      rw [ih (fun x hx => hall x (by simp [hx])) (c :: acc) t]
      simp [List.append_assoc]

theorem collapseAux_cons_nonspace {d : Char} (hd : isPySpace d = false)
    (acc t : Str) :
    collapseAux acc (d :: t) = flushRun acc ++ d :: collapseAux [] t := by
  simp [collapseAux, hd]

theorem flushRun_allspace {x : Str} (h : ∀ c ∈ x, isPySpace c = true) :
    ∀ c ∈ flushRun x, isPySpace c = true := by
  unfold flushRun
  by_cases hn : '\n' ∈ x
  · rw [if_pos hn]
    intro c hc
    have hcs : c = ' ' := by simpa using hc
    subst hcs
    decide
  · rw [if_neg hn]
    intro c hc
    exact h c (List.mem_reverse.mp hc)

theorem collapse_rstrip_comm (s : Str) :
    reSubNLRuns (rstrip s) = rstrip (reSubNLRuns s) := by
  generalize hn : s.length = n
  induction n using Nat.strong_induction_on generalizing s with
  | _ n ih =>
  cases s with
  | nil => simp [reSubNLRuns, collapseAux, flushRun, rstrip]
  | cons d t =>
    by_cases hd : isPySpace d = true
    · have hru : (d :: t).takeWhile isPySpace ++ (d :: t).dropWhile isPySpace =
          d :: t := List.takeWhile_append_dropWhile isPySpace (d :: t)
      have hrall : ∀ c ∈ (d :: t).takeWhile isPySpace, isPySpace c = true :=
        fun c hc => List.mem_takeWhile_imp hc
      cases hu : (d :: t).dropWhile isPySpace with
      | nil =>
          have hall : ∀ c ∈ d :: t, isPySpace c = true := by
            intro c hc
            rw [← hru, hu, List.append_nil] at hc
            exact hrall c hc
          rw [rstrip_allspace hall]
          have h2 : reSubNLRuns (d :: t) = flushRun (d :: t).reverse := by
            unfold reSubNLRuns
            conv_lhs => rw [show d :: t = (d :: t) ++ [] from (List.append_nil _).symm]
            rw [collapseAux_space_run (d :: t) hall [] [], List.append_nil]
            rfl
          rw [h2]
          have h3 : ∀ c ∈ flushRun (d :: t).reverse, isPySpace c = true :=
            flushRun_allspace (fun c hc => hall c (List.mem_reverse.mp hc))
          rw [rstrip_allspace h3]
          simp [reSubNLRuns, collapseAux, flushRun]
      | cons e u2 =>
          have he : isPySpace e = false := dropWhile_head_false hu
          have hrsu : rstrip ((d :: t).dropWhile isPySpace) ≠ [] := by
            rw [hu, rstrip_cons_nonspace he]
            simp
          have hL : rstrip (d :: t) =
              (d :: t).takeWhile isPySpace ++ rstrip ((d :: t).dropWhile isPySpace) := by
            conv_lhs => rw [← hru]
            exact rstrip_append_of_ne hrsu
          have hLHS : reSubNLRuns (rstrip (d :: t)) =
              flushRun ((d :: t).takeWhile isPySpace).reverse ++
                e :: reSubNLRuns (rstrip u2) := by
            rw [hL, hu, rstrip_cons_nonspace he]
            unfold reSubNLRuns
            rw [collapseAux_space_run _ hrall [] (e :: rstrip u2), List.append_nil,
                collapseAux_cons_nonspace he]
          have hRHS1 : reSubNLRuns (d :: t) =
              flushRun ((d :: t).takeWhile isPySpace).reverse ++
                e :: reSubNLRuns u2 := by
            unfold reSubNLRuns
            conv_lhs => rw [← hru, hu]
            rw [collapseAux_space_run _ hrall [] (e :: u2), List.append_nil,
                collapseAux_cons_nonspace he]
          have hne2 : rstrip (e :: reSubNLRuns u2) ≠ [] := by
            rw [rstrip_cons_nonspace he]
            simp
          rw [hLHS, hRHS1, rstrip_append_of_ne hne2, rstrip_cons_nonspace he]
          have hlen2 : u2.length < n := by
            have h5 : ((d :: t).dropWhile isPySpace).length ≤ (d :: t).length :=
              (List.dropWhile_sublist isPySpace).length_le
            rw [hu] at h5
            simp only [List.length_cons] at h5 hn
            omega
          rw [ih u2.length hlen2 u2 rfl]
    · have hd2 : isPySpace d = false := by
        revert hd
        cases isPySpace d <;> simp
      rw [rstrip_cons_nonspace hd2]
      unfold reSubNLRuns
      rw [collapseAux_cons_nonspace hd2, collapseAux_cons_nonspace hd2]
      have hfl : flushRun [] = [] := by simp [flushRun]
      rw [hfl, rstrip_append_of_ne (by rw [rstrip_cons_nonspace hd2]; simp),
          rstrip_cons_nonspace hd2]
      have hlen2 : t.length < n := by
        simp only [List.length_cons] at hn
        omega
      have := ih t.length hlen2 t rfl
      unfold reSubNLRuns at this
      rw [this]

theorem collapseAux_getLast_nonspace :
    ∀ (s acc : Str) (c : Char), s.getLast? = some c → isPySpace c = false →
      (collapseAux acc s).getLast? = some c := by
  intro s
  induction s with
  | nil => intro acc c hc _; exact absurd hc (by simp)
  | cons d rest ih =>
      intro acc c hc hns
      cases rest with
      | nil =>
          have hdc : d = c := by simpa using hc
          subst hdc
          rw [collapseAux_cons_nonspace hns acc []]
          rw [show collapseAux ([] : Str) ([] : Str) = [] from by
                simp [collapseAux, flushRun]]
          exact List.getLast?_concat _
      | cons e rest2 =>
          have hc2 : (e :: rest2).getLast? = some c := by simpa using hc
          by_cases hd : isPySpace d = true
          · rw [show collapseAux acc (d :: e :: rest2) =
                  collapseAux (d :: acc) (e :: rest2) from by
                  simp [collapseAux, hd]]
            exact ih (d :: acc) c hc2 hns
          · have hd2 : isPySpace d = false := by
              revert hd
              cases isPySpace d <;> simp
            rw [collapseAux_cons_nonspace hd2]
            have hinner := ih [] c hc2 hns
            rw [List.getLast?_append]
            cases hin : collapseAux [] (e :: rest2) with
            | nil => rw [hin] at hinner; exact absurd hinner (by simp)
            | cons z zs =>
                rw [hin] at hinner
                rw [List.getLast?_cons_cons, hinner]
                rfl

theorem alnum_not_space {c : Char} (h : pyIsAlnum c = true) :
    isPySpace c = false := by
  cases hsp : isPySpace c
  · rfl
  · exfalso
    unfold isPySpace at hsp
    simp only [Bool.or_eq_true, beq_iff_eq] at hsp
    rcases hsp with ((((rfl | rfl) | rfl) | rfl) | rfl) | rfl <;>
      exact absurd h (by decide)

theorem pywordsAux_append_space {c : Char} (hc : isPySpace c = true) :
    ∀ (a acc b : Str),
      pywordsAux acc (a ++ c :: b) = pywordsAux acc a ++ pywords b := by
  intro a
  induction a with
  | nil =>
      intro acc b
      simp [pywordsAux, hc, pywords]
  | cons d a2 ih =>
      intro acc b
      by_cases hd : isPySpace d = true
      · rw [show pywordsAux acc (d :: a2 ++ c :: b) =
              (if acc.isEmpty then [] else [acc.reverse]) ++
                pywordsAux [] (a2 ++ c :: b) from by
              simp [pywordsAux, hd]]
        rw [show pywordsAux acc (d :: a2) =
              (if acc.isEmpty then [] else [acc.reverse]) ++ pywordsAux [] a2 from by
              simp [pywordsAux, hd]]
        rw [ih [] b, List.append_assoc]
      · rw [show pywordsAux acc (d :: a2 ++ c :: b) =
              pywordsAux (d :: acc) (a2 ++ c :: b) from by simp [pywordsAux, hd]]
        rw [show pywordsAux acc (d :: a2) = pywordsAux (d :: acc) a2 from by
              simp [pywordsAux, hd]]
        exact ih (d :: acc) b

theorem pywords_append_space {c : Char} (hc : isPySpace c = true) (a b : Str) :
    pywords (a ++ c :: b) = pywords a ++ pywords b :=
  pywordsAux_append_space hc a [] b

theorem pywords_allspace_append {a : Str} (h : ∀ c ∈ a, isPySpace c = true)
    (t : Str) : pywords (a ++ t) = pywords t := by
  induction a with
  | nil => simp
  | cons c a2 ih =>
      have hc : isPySpace c = true := h c (by simp)
      rw [show (c :: a2) ++ t = c :: (a2 ++ t) from rfl]
      rw [show pywords (c :: (a2 ++ t)) = pywordsAux [] (a2 ++ t) from by
            simp [pywords, pywordsAux, hc]]
      exact ih (fun x hx => h x (by simp [hx]))

theorem pywords_allspace {a : Str} (h : ∀ c ∈ a, isPySpace c = true) :
    pywords a = [] := by
  have h2 := pywords_allspace_append h []
  rw [List.append_nil] at h2
  rw [h2]
  rfl

theorem pywordsAux_word :
    ∀ (w acc : Str), (∀ c ∈ w, isPySpace c = false) →
      pywordsAux acc w =
        if (acc.reverse ++ w).isEmpty then [] else [acc.reverse ++ w] := by
  intro w
  induction w with
  | nil =>
      intro acc _
      cases acc <;> simp [pywordsAux]
  | cons d w2 ih =>
      intro acc hall
      have hd : isPySpace d = false := hall d (by simp)
      rw [show pywordsAux acc (d :: w2) = pywordsAux (d :: acc) w2 from by
            simp [pywordsAux, hd]]
      rw [ih (d :: acc) (fun c hc => hall c (by simp [hc]))]
      simp [List.append_assoc]

theorem pywords_word {w : Str} (hne : w ≠ [])
    (hall : ∀ c ∈ w, isPySpace c = false) : pywords w = [w] := by
  unfold pywords
  rw [pywordsAux_word w [] hall]
  simp [hne]

theorem pywords_mem :
    ∀ (s acc : Str), (∀ c ∈ acc, isPySpace c = false) →
      ∀ w ∈ pywordsAux acc s, w ≠ [] ∧ ∀ c ∈ w, isPySpace c = false := by
  intro s
  induction s with
  | nil =>
      intro acc hacc w hw
      simp only [pywordsAux] at hw
      by_cases ha : acc.isEmpty
      · rw [if_pos ha] at hw
        simp at hw
      · rw [if_neg ha] at hw
        have hw2 : w = acc.reverse := by simpa using hw
        subst hw2
        refine ⟨?_, fun c hc => hacc c (List.mem_reverse.mp hc)⟩
        intro hh
        rw [List.reverse_eq_nil_iff.mp hh] at ha
        exact ha rfl
  | cons d s2 ih =>
      intro acc hacc w hw
      by_cases hd : isPySpace d = true
      · rw [show pywordsAux acc (d :: s2) =
              (if acc.isEmpty then [] else [acc.reverse]) ++ pywordsAux [] s2 from by
              simp [pywordsAux, hd]] at hw
        rw [List.mem_append] at hw
        rcases hw with hw | hw
        · by_cases ha : acc.isEmpty
          · rw [if_pos ha] at hw
            simp at hw
          · rw [if_neg ha] at hw
            have hw2 : w = acc.reverse := by simpa using hw
            subst hw2
            refine ⟨?_, fun c hc => hacc c (List.mem_reverse.mp hc)⟩
            intro hh
            rw [List.reverse_eq_nil_iff.mp hh] at ha
            exact ha rfl
        · exact ih [] (by simp) w hw
      · rw [show pywordsAux acc (d :: s2) = pywordsAux (d :: acc) s2 from by
              simp [pywordsAux, hd]] at hw
        refine ih (d :: acc) ?_ w hw
        intro c hc
        rcases List.mem_cons.mp hc with rfl | hc2
        · revert hd
          cases isPySpace c <;> simp
        · exact hacc c hc2

theorem pywords_joinNL : ∀ lines : List Str,
    pywords (joinNL lines) = (lines.map pywords).flatten
  | [] => by simp [joinNL, pywords, pywordsAux]
  | [l] => by simp [joinNL]
  | l :: l2 :: ls => by
      rw [show joinNL (l :: l2 :: ls) = l ++ '\n' :: joinNL (l2 :: ls) from rfl]
      rw [pywords_append_space (by decide) l (joinNL (l2 :: ls))]
      rw [pywords_joinNL (l2 :: ls)]
      simp

theorem pywords_lstrip (s : Str) :
    pywords (List.dropWhile isPySpace s) = pywords s := by
  induction s with
  | nil => rfl
  | cons c cs ih =>
      by_cases hc : isPySpace c = true
      · rw [List.dropWhile_cons, if_pos hc, ih]
        rw [show pywords (c :: cs) = pywords cs from by
              simp [pywords, pywordsAux, hc]]
      · rw [List.dropWhile_cons, if_neg (by simp [hc])]

theorem getLast?_append_right :
    ∀ (l₁ : Str) {l₂ : Str}, l₂ ≠ [] → (l₁ ++ l₂).getLast? = l₂.getLast? := by
  intro l₁
  induction l₁ with
  | nil => intro l₂ _; rfl
  | cons c t ih =>
      intro l₂ h
      rw [List.cons_append]
      cases hl : t ++ l₂ with
      | nil => exact absurd (List.append_eq_nil.mp hl).2 h
      | cons z zs => rw [List.getLast?_cons_cons, ← hl, ih h]

theorem joinNL_ne_nil {l : Str} (h : l ≠ []) (ls : List Str) :
    joinNL (l :: ls) ≠ [] := by
  cases ls with
  | nil => simpa [joinNL] using h
  | cons l2 ls2 => simp [joinNL]

theorem joinNL_getLast? :
    ∀ (ls : List Str) (l : Str), (∀ x ∈ ls, x ≠ []) → ls.getLast? = some l →
      (joinNL ls).getLast? = l.getLast? := by
  intro ls
  induction ls with
  | nil => intro l _ h; simp at h
  | cons l1 ls2 ih =>
      intro l hne hlast
      cases ls2 with
      | nil =>
          have h2 : l1 = l := by simpa using hlast
          subst h2
          rfl
      | cons l2 ls3 =>
          rw [List.getLast?_cons_cons] at hlast
          rw [show joinNL (l1 :: l2 :: ls3) = l1 ++ '\n' :: joinNL (l2 :: ls3) from rfl]
          have hjne : joinNL (l2 :: ls3) ≠ [] := joinNL_ne_nil (hne l2 (by simp)) ls3
          rw [getLast?_append_right l1 (by simp)]
          cases hj : joinNL (l2 :: ls3) with
          | nil => exact absurd hj hjne
          | cons z zs =>
              rw [List.getLast?_cons_cons, ← hj]
              exact ih l (fun x hx => hne x (by simp [hx])) hlast

theorem splitlines_eq_aux {s : Str} (h : s ≠ []) :
    splitlines s = splitlinesAux [] s := by
  cases s with
  | nil => exact absurd rfl h
  | cons c t => rfl

theorem splitlinesAux_cons_other {c : Char} (h1 : c ≠ '\r') (h2 : c ≠ '\n')
    (acc rest : Str) :
    splitlinesAux acc (c :: rest) = splitlinesAux (c :: acc) rest := by
  rw [splitlinesAux.eq_def]
  split <;> simp_all

theorem splitlinesAux_cons_newline (acc rest : Str) :
    splitlinesAux acc ('\n' :: rest) =
      acc.reverse :: (if rest.isEmpty then [] else splitlinesAux [] rest) := rfl

theorem splitlinesAux_line :
    ∀ (l : Str), (∀ c ∈ l, c ≠ '\n' ∧ c ≠ '\r') →
      ∀ (acc rest : Str),
        splitlinesAux acc (l ++ rest) = splitlinesAux (l.reverse ++ acc) rest := by
  intro l
  induction l with
  | nil => intro _ acc rest; simp
  | cons c l2 ih =>
      intro h acc rest
      obtain ⟨hn, hr⟩ := h c (by simp)
      rw [List.cons_append, splitlinesAux_cons_other hr hn acc (l2 ++ rest)]
      rw [ih (fun x hx => h x (by simp [hx])) (c :: acc) rest]
      simp [List.append_assoc]

theorem splitlines_joinNL :
    ∀ lines : List Str,
      (∀ l ∈ lines, l ≠ [] ∧ ∀ c ∈ l, c ≠ '\n' ∧ c ≠ '\r') →
      splitlines (joinNL lines) = lines := by
  intro lines
  induction lines with
  | nil => intro _; rfl
  | cons l ls ih =>
      intro h
      obtain ⟨hlne, hlnl⟩ := h l (by simp)
      cases ls with
      | nil =>
          rw [show joinNL [l] = l from rfl]
          rw [splitlines_eq_aux hlne]
          have h2 := splitlinesAux_line l hlnl [] []
          rw [List.append_nil] at h2
          rw [h2]
          simp [splitlinesAux]
      | cons l2 ls2 =>
          rw [show joinNL (l :: l2 :: ls2) = l ++ '\n' :: joinNL (l2 :: ls2) from rfl]
          have hne : l ++ '\n' :: joinNL (l2 :: ls2) ≠ [] := by simp
          rw [splitlines_eq_aux hne]
          rw [splitlinesAux_line l hlnl [] ('\n' :: joinNL (l2 :: ls2))]
          rw [splitlinesAux_cons_newline]
          have hjne : joinNL (l2 :: ls2) ≠ [] := joinNL_ne_nil (h l2 (by simp)).1 ls2
          rw [if_neg (by simpa [List.isEmpty_iff] using hjne)]
          rw [List.append_nil, List.reverse_reverse]
          congr 1
          rw [← splitlines_eq_aux hjne]
          exact ih (fun x hx => h x (by simp [hx]))

theorem lstrip_allspace_append {a : Str} (h : ∀ c ∈ a, isPySpace c = true)
    (t : Str) : lstrip (a ++ t) = lstrip t := by
  have h2 : List.dropWhile isPySpace a = [] := List.dropWhile_eq_nil_iff.mpr h
  unfold lstrip
  simp [List.dropWhile_append, h2]

theorem lstrip_cons_nonspace {c : Char} (h : isPySpace c = false) (t : Str) :
    lstrip (c :: t) = c :: t := by
  unfold lstrip
  rw [List.dropWhile_cons, if_neg (by simp [h])]

theorem nonspace_not_newline {c : Char} (h : isPySpace c = false) :
    c ≠ '\n' ∧ c ≠ '\r' := by
  constructor <;> intro hh <;> subst hh <;> exact absurd h (by decide)

theorem spacetab_space {c : Char} (h : c = ' ' ∨ c = '\t') :
    isPySpace c = true ∧ c ≠ '\n' ∧ c ≠ '\r' := by
  rcases h with rfl | rfl <;> exact ⟨by decide, by decide, by decide⟩

theorem wrapWords_spec (width : Nat) (si : Str)
    (hsi : ∀ c ∈ si, c = ' ' ∨ c = '\t') :
    ∀ (ws : List Str) (cur : Str),
      cur ≠ [] →
      (∀ c ∈ cur, c ≠ '\n' ∧ c ≠ '\r') →
      (∃ c, cur.getLast? = some c ∧ isPySpace c = false) →
      cur.length ≤ width →
      (∀ w ∈ ws, (w ≠ [] ∧ ∀ c ∈ w, isPySpace c = false) ∧
        si.length + w.length ≤ width) →
      (∀ l ∈ wrapWords width si cur ws,
          l ≠ [] ∧ (∀ c ∈ l, c ≠ '\n' ∧ c ≠ '\r') ∧
          (∃ c, l.getLast? = some c ∧ isPySpace c = false) ∧ l.length ≤ width) ∧
      ((wrapWords width si cur ws).map pywords).flatten = pywords cur ++ ws ∧
      (∃ e, (wrapWords width si cur ws).headD [] = cur ++ e) ∧
      wrapWords width si cur ws ≠ [] := by
  intro ws
  induction ws with
  | nil =>
      intro cur h1 h2 h3 h4 _
      refine ⟨?_, by simp [wrapWords], ⟨[], by simp [wrapWords]⟩, by simp [wrapWords]⟩
      intro l hl
      have hlc : l = cur := by simpa [wrapWords] using hl
      subst hlc
      exact ⟨h1, h2, h3, h4⟩
  | cons w ws2 ih =>
      intro cur h1 h2 h3 h4 hws
      obtain ⟨⟨hwne, hwns⟩, hwfit⟩ := hws w (by simp)
      have hwnl : ∀ c ∈ w, c ≠ '\n' ∧ c ≠ '\r' :=
        fun c hc => nonspace_not_newline (hwns c hc)
      have hwlast : ∃ c, w.getLast? = some c ∧ isPySpace c = false :=
        ⟨w.getLast hwne, List.getLast?_eq_getLast w hwne,
         hwns _ (List.getLast_mem hwne)⟩
      by_cases hext : cur.length + 1 + w.length ≤ width
      · rw [show wrapWords width si cur (w :: ws2) =
              wrapWords width si (cur ++ ' ' :: w) ws2 from by
              simp [wrapWords, hext]]
        have hcur1 : (cur ++ ' ' :: w) ≠ [] := by simp
        have hcur2 : ∀ c ∈ cur ++ ' ' :: w, c ≠ '\n' ∧ c ≠ '\r' := by
          intro c hc
          rcases List.mem_append.mp hc with hc | hc
          · exact h2 c hc
          · rcases List.mem_cons.mp hc with rfl | hc
            · exact ⟨by decide, by decide⟩
            · exact hwnl c hc
        have hcur3 : ∃ c, (cur ++ ' ' :: w).getLast? = some c ∧
            isPySpace c = false := by
          obtain ⟨c, hc1, hc2⟩ := hwlast
          refine ⟨c, ?_, hc2⟩
          rw [getLast?_append_right cur (by simp)]
          rw [show (' ' :: w) = [' '] ++ w from rfl,
              getLast?_append_right [' '] hwne, hc1]
        have hcur4 : (cur ++ ' ' :: w).length ≤ width := by
          simp only [List.length_append, List.length_cons]
          omega
        obtain ⟨ha, hb, ⟨e, he⟩, hd⟩ :=
          ih (cur ++ ' ' :: w) hcur1 hcur2 hcur3 hcur4
            (fun x hx => hws x (by simp [hx]))
        refine ⟨ha, ?_, ⟨' ' :: w ++ e, by rw [he, List.append_assoc]⟩, hd⟩
        rw [hb]
        rw [pywords_append_space (by decide) cur w]
        rw [pywords_word hwne hwns]
        simp
      · rw [show wrapWords width si cur (w :: ws2) =
              cur :: wrapWords width si (si ++ w) ws2 from by
              simp [wrapWords, hext]]
        have hsisp : ∀ c ∈ si, isPySpace c = true :=
          fun c hc => (spacetab_space (hsi c hc)).1
        have hcur1 : (si ++ w) ≠ [] := by simp [hwne]
        have hcur2 : ∀ c ∈ si ++ w, c ≠ '\n' ∧ c ≠ '\r' := by
          intro c hc
          rcases List.mem_append.mp hc with hc | hc
          · exact (spacetab_space (hsi c hc)).2
          · exact hwnl c hc
        have hcur3 : ∃ c, (si ++ w).getLast? = some c ∧ isPySpace c = false := by
          obtain ⟨c, hc1, hc2⟩ := hwlast
          exact ⟨c, by rw [getLast?_append_right si hwne, hc1], hc2⟩
        have hcur4 : (si ++ w).length ≤ width := by
          simp only [List.length_append]
          omega
        obtain ⟨ha, hb, ⟨e, he⟩, hd⟩ :=
          ih (si ++ w) hcur1 hcur2 hcur3 hcur4
            (fun x hx => hws x (by simp [hx]))
        refine ⟨?_, ?_, ⟨[], by simp⟩, by simp⟩
        · intro l hl
          rcases List.mem_cons.mp hl with rfl | hl
          · exact ⟨h1, h2, h3, h4⟩
          · exact ha l hl
        · rw [List.map_cons, List.flatten_cons, hb]
          rw [pywords_allspace_append hsisp w, pywords_word hwne hwns]
          simp

theorem joinNL_shape (h : Str) (t : List Str) :
    joinNL (h :: t) = h ++ (if t.isEmpty then [] else '\n' :: joinNL t) := by
  cases t <;> simp [joinNL]

/-! ## Claim theorems -/

/-- C10: `split_summary_and_description` is total.  The stripped second
line is indexed only after the blank-second-line test has failed, so the
index is always in bounds and no input makes the function fail. -/
theorem split_summary_and_description_total (contents : Str) :
    exOk (split_summary_and_description contents) = true := by
  unfold split_summary_and_description
  by_cases h1 : 1 < (splitlines contents).length ∧
      strip ((splitlines contents).getD 1 []) = []
  · rw [if_pos h1]; rfl
  · rw [if_neg h1]
    by_cases h2 : 1 < (splitlines contents).length
    · rw [if_pos h2]
      have hne : strip ((splitlines contents).getD 1 []) ≠ [] :=
        fun he => h1 ⟨h2, he⟩
      cases hstrip : strip ((splitlines contents).getD 1 []) with
      | nil => exact absurd hstrip hne
      | cons c rest =>
          simp only [pyindex0]
          by_cases hc : pyIsAlnum c = true
          · simp [hc, splitSentence_ok]
          · simp [hc, exOk]
    · rw [if_neg h2]
      exact splitSentence_ok contents

/-- C5: when the content has at least two lines and the second is
whitespace-only, the summary is line 1 and the description is lines 3
onward joined by newline. -/
theorem split_blank_second_line (contents : Str)
    (h1 : 1 < (splitlines contents).length)
    (h2 : strip ((splitlines contents).getD 1 []) = []) :
    split_summary_and_description contents =
      .ok ((splitlines contents).getD 0 [],
           joinNL ((splitlines contents).drop 2)) := by
  unfold split_summary_and_description
  rw [if_pos ⟨h1, h2⟩]

/-- C5 witness: `"Summary line.\n\nBody text here."` splits into
`"Summary line."` and `"Body text here."`. -/
theorem split_blank_second_line_witness :
    split_summary_and_description (pystr "Summary line.\n\nBody text here.") =
      .ok (pystr "Summary line.", pystr "Body text here.") := by
  rw [split_blank_second_line (pystr "Summary line.\n\nBody text here.")
        (by decide) (by decide)]
  decide

/-- C4 counterexample: the content `"a.\nb"` reaches the sentence branch
(neither the blank-second-line rule nor the symbol rule applies: the second
line is `"b"`, non-blank with an alphanumeric head), contains no occurrence
of `". "` (period followed by a space), yet `split_summary_and_description`
does not return the whole trimmed content with an empty description — the
code splits at the period-newline pair instead. -/
theorem split_sentence_period_space_counterexample :
    1 < (splitlines (pystr "a.\nb")).length ∧
    strip ((splitlines (pystr "a.\nb")).getD 1 []) ≠ [] ∧
    pyindex0 (strip ((splitlines (pystr "a.\nb")).getD 1 [])) = .ok 'b' ∧
    pyIsAlnum 'b' = true ∧
    py_split1 (pystr ". ") (pystr "a.\nb") = none ∧
    split_summary_and_description (pystr "a.\nb") = .ok (pystr "a.", pystr "b") ∧
    split_summary_and_description (pystr "a.\nb") ≠
      .ok (strip (pystr "a.\nb"), []) := by decide

/-- C4 (amended): in the sentence branch the split is on the first
occurrence of a period followed by any whitespace character (regex `\.\s`),
not only a space: the summary is the text before the pair, trimmed, with a
period reappended, and the description is the text after it, trimmed; when
no period-whitespace pair occurs the summary is the entire trimmed content
and the description is empty. -/
theorem split_sentence_rule_amended (contents : Str)
    (hrules : (splitlines contents).length ≤ 1 ∨
      (∃ c rest, strip ((splitlines contents).getD 1 []) = c :: rest ∧
        pyIsAlnum c = true)) :
    (re_split_dot_ws contents = none →
      split_summary_and_description contents = .ok (strip contents, []) ∧
      ∀ u c v, contents = u ++ '.' :: c :: v → isPySpace c = false) ∧
    (∀ a b, re_split_dot_ws contents = some (a, b) →
      split_summary_and_description contents = .ok (strip a ++ ['.'], strip b) ∧
      ∃ c, isPySpace c = true ∧ contents = a ++ '.' :: c :: b ∧
        re_split_dot_ws a = none) := by
  have hsent : split_summary_and_description contents = splitSentence contents := by
    unfold split_summary_and_description
    rcases hrules with hle | ⟨c, rest, hcr, hal⟩
    · rw [if_neg (fun hcontra => absurd hcontra.1 (by omega)), if_neg (by omega)]
    · have hlen : 1 < (splitlines contents).length := by
        by_contra hnl
        rw [List.getD_eq_default _ _ (by omega)] at hcr
        exact List.noConfusion hcr
      rw [if_neg (fun hcontra => by rw [hcr] at hcontra; exact List.noConfusion hcontra.2)]
      rw [if_pos hlen, hcr]
      simp only [pyindex0]
      rw [if_neg (by simp [hal])]
  constructor
  · intro hn
    refine ⟨?_, re_split_dot_ws_eq_none contents hn⟩
    rw [hsent]
    unfold splitSentence
    rw [hn]
  · intro a b hs
    refine ⟨?_, re_split_dot_ws_eq_some contents a b hs⟩
    rw [hsent]
    unfold splitSentence
    rw [hs]

/-- C4 witness: the claim's concrete example, through the amended theorem:
`"Do the thing. Then explain more."` splits into `"Do the thing."` and
`"Then explain more."`. -/
theorem split_sentence_rule_amended_witness :
    (splitlines (pystr "Do the thing. Then explain more.")).length ≤ 1 ∧
    split_summary_and_description (pystr "Do the thing. Then explain more.") =
      .ok (pystr "Do the thing.", pystr "Then explain more.") := by
  refine ⟨by decide, ?_⟩
  have h := (split_sentence_rule_amended (pystr "Do the thing. Then explain more.")
      (Or.inl (by decide))).2 (pystr "Do the thing") (pystr "Then explain more.")
      (by decide)
  rw [h.1]
  decide

/-- C6: `normalize_summary` computes exactly the specification's reading
(collapse the whitespace runs around internal newlines to single spaces,
right-trim, append a period exactly when the result is non-empty with an
alphanumeric last character), and on content that is non-empty and ends in
an alphanumeric character the normalized summary ends in a period. -/
theorem normalize_summary_matches_spec (s : Str) :
    normalize_summary s = normalize_summary_spec s ∧
    (∀ c, s.getLast? = some c → pyIsAlnum c = true →
      pyendswith (normalize_summary s) ['.'] = true) := by
  constructor
  · unfold normalize_summary normalize_summary_spec
    rw [collapse_rstrip_comm]
  · intro c hc hal
    have hns := alnum_not_space hal
    unfold normalize_summary
    rw [rstrip_eq_self_of_last_nonspace hc hns]
    have h2 : (reSubNLRuns s).getLast? = some c :=
      collapseAux_getLast_nonspace s [] c hc hns
    show pyendswith
        (if (match (reSubNLRuns s).getLast? with
              | some x => pyIsAlnum x
              | none => false) = true then
           reSubNLRuns s ++ ['.']
         else reSubNLRuns s) ['.'] = true
    rw [h2]
    rw [if_pos (show (match some c with
          | some x => pyIsAlnum x
          | none => false) = true from by simpa using hal)]
    simp only [pyendswith, List.isSuffixOf_iff_suffix]
    exact List.suffix_append _ _

/-- C6 witness: `"Hello world"` ends alphanumeric and its normalized
summary ends in a period. -/
theorem normalize_summary_matches_spec_witness :
    (pystr "Hello world").getLast? = some 'd' ∧
    pyIsAlnum 'd' = true ∧
    pyendswith (normalize_summary (pystr "Hello world")) ['.'] = true :=
  ⟨by decide, by decide,
   (normalize_summary_matches_spec (pystr "Hello world")).2 'd'
     (by decide) (by decide)⟩

/-- C9: a docstring that opens with `'''` is checked to close with `'''`:
when the check fails `strip_docstring` raises the assertion, and when every
`'''`-opened docstring closes with `'''` the failure branch is unreachable
and the function returns normally. -/
theorem strip_docstring_checked (d : Str)
    (hstart : pystartswith (lstrip d) tripleS = true) :
    (pyendswith (rstrip d) tripleS = false →
      strip_docstring d = .error .assertionError) ∧
    (pyendswith (rstrip d) tripleS = true →
      exOk (strip_docstring d) = true) := by
  constructor
  · intro hend
    unfold strip_docstring
    rw [if_pos (by simp [hstart, hend])]
  · intro hend
    have hs := py_split1_isSome_of_lstrip_prefix (by decide) d hstart
    obtain ⟨p, hp⟩ := Option.isSome_iff_exists.mp hs
    cases p
    simp [strip_docstring, hstart, hend, hp, exOk]

/-- C9 witness: the check at concrete docstrings, one malformed (assertion
raised) and one well-formed (normal return). -/
theorem strip_docstring_checked_witness :
    strip_docstring (tripleS ++ pystr " x ") = .error .assertionError ∧
    exOk (strip_docstring (tripleS ++ pystr "abc" ++ tripleS)) = true :=
  ⟨(strip_docstring_checked (tripleS ++ pystr " x ") (by decide)).1 (by decide),
   (strip_docstring_checked (tripleS ++ pystr "abc" ++ tripleS) (by decide)).2
     (by decide)⟩

/-- C2: whenever the stripped content of a docstring contains the substring
`\"\"\"`, `format_docstring` returns the docstring unchanged, for every
indentation and option setting. -/
theorem format_docstring_nested_triple_unchanged (ind d : Str) (opts : Opts)
    (c : Str) (h1 : strip_docstring d = .ok c) (h2 : tripleD <:+: c) :
    format_docstring ind d opts = .ok d := by
  have hcnt : pycount c tripleD ≠ 0 := (pycount_ne_zero_iff (by decide) c).mpr h2
  simp [format_docstring, h1, hcnt]

/-- C1: the non-docstring frame property of `format_code`: its output is
the concatenation of per-token chunks, and at every position whose token is
not classified as a docstring the chunk coincides with the corresponding
chunk of the verbatim reconstruction (same inter-token gaps, raw token
text).  Under the tokenizer interface contract the verbatim chunks
concatenate to the input text, so only detected docstring spans can differ
from the input. -/
theorem format_code_nondocstring_frame (tokens : List Token) (opts : Opts) :
    format_code tokens opts = joinChunks (chunksFrom opts initSt tokens) ∧
    (chunksVerbatim initSt tokens).length = tokens.length ∧
    ∀ i, i < tokens.length →
      isDocstringTok ((statesFrom initSt tokens).getD i initSt)
        (tokens.getD i dummyToken) = false →
      (chunksFrom opts initSt tokens).getD i (.error .indexError) =
        .ok ((chunksVerbatim initSt tokens).getD i []) := by
  refine ⟨?_, chunksVerbatim_length tokens initSt,
          fun i hi hd => chunks_agree opts tokens initSt i hi hd⟩
  unfold format_code
  rw [format_code_loop_eq_chunks]
  cases joinChunks (chunksFrom opts initSt tokens) with
  | error e => rfl
  | ok r => simp

/-- C1 witness: a concrete five-token stream for the source `"x = 1\n"`;
token 2 (the literal `1`) is not a docstring and its chunk equals the
verbatim chunk.  The stream also reconstructs the source exactly. -/
theorem format_code_nondocstring_frame_witness :
    (2 < ([⟨TokenType.OTHER, pystr "x", 1, 0, 1, 1, pystr "x = 1\n"⟩,
           ⟨TokenType.OTHER, pystr "=", 1, 2, 1, 3, pystr "x = 1\n"⟩,
           ⟨TokenType.OTHER, pystr "1", 1, 4, 1, 5, pystr "x = 1\n"⟩,
           ⟨TokenType.OTHER, pystr "\n", 1, 5, 1, 6, pystr "x = 1\n"⟩,
           ⟨TokenType.OTHER, pystr "", 2, 0, 2, 0, pystr ""⟩] : List Token).length) ∧
    (chunksFrom ⟨0, false, true⟩ initSt
        [⟨TokenType.OTHER, pystr "x", 1, 0, 1, 1, pystr "x = 1\n"⟩,
         ⟨TokenType.OTHER, pystr "=", 1, 2, 1, 3, pystr "x = 1\n"⟩,
         ⟨TokenType.OTHER, pystr "1", 1, 4, 1, 5, pystr "x = 1\n"⟩,
         ⟨TokenType.OTHER, pystr "\n", 1, 5, 1, 6, pystr "x = 1\n"⟩,
         ⟨TokenType.OTHER, pystr "", 2, 0, 2, 0, pystr ""⟩]).getD 2
        (.error .indexError) =
      .ok ((chunksVerbatim initSt
        [⟨TokenType.OTHER, pystr "x", 1, 0, 1, 1, pystr "x = 1\n"⟩,
         ⟨TokenType.OTHER, pystr "=", 1, 2, 1, 3, pystr "x = 1\n"⟩,
         ⟨TokenType.OTHER, pystr "1", 1, 4, 1, 5, pystr "x = 1\n"⟩,
         ⟨TokenType.OTHER, pystr "\n", 1, 5, 1, 6, pystr "x = 1\n"⟩,
         ⟨TokenType.OTHER, pystr "", 2, 0, 2, 0, pystr ""⟩]).getD 2 []) :=
  ⟨by decide,
   (format_code_nondocstring_frame
      [⟨TokenType.OTHER, pystr "x", 1, 0, 1, 1, pystr "x = 1\n"⟩,
       ⟨TokenType.OTHER, pystr "=", 1, 2, 1, 3, pystr "x = 1\n"⟩,
       ⟨TokenType.OTHER, pystr "1", 1, 4, 1, 5, pystr "x = 1\n"⟩,
       ⟨TokenType.OTHER, pystr "\n", 1, 5, 1, 6, pystr "x = 1\n"⟩,
       ⟨TokenType.OTHER, pystr "", 2, 0, 2, 0, pystr ""⟩]
      ⟨0, false, true⟩).2.2 2 (by decide) (by decide)⟩

example :
    format_code
      [⟨TokenType.OTHER, pystr "x", 1, 0, 1, 1, pystr "x = 1\n"⟩,
       ⟨TokenType.OTHER, pystr "=", 1, 2, 1, 3, pystr "x = 1\n"⟩,
       ⟨TokenType.OTHER, pystr "1", 1, 4, 1, 5, pystr "x = 1\n"⟩,
       ⟨TokenType.OTHER, pystr "\n", 1, 5, 1, 6, pystr "x = 1\n"⟩,
       ⟨TokenType.OTHER, pystr "", 2, 0, 2, 0, pystr ""⟩]
      ⟨0, false, true⟩ = .ok (pystr "x = 1\n") := by decide

example :
    format_code
      [⟨TokenType.OTHER, pystr "def f():", 1, 0, 1, 8, pystr "def f():\n"⟩,
       ⟨TokenType.OTHER, pystr "\n", 1, 8, 1, 9, pystr "def f():\n"⟩,
       ⟨TokenType.INDENT, pystr "    ", 2, 0, 2, 4, pystr "    \"\"\" Doc \"\"\"\n"⟩,
       ⟨TokenType.STRING, pystr "\"\"\" Doc \"\"\"", 2, 4, 2, 15,
        pystr "    \"\"\" Doc \"\"\"\n"⟩,
       ⟨TokenType.OTHER, pystr "\n", 2, 15, 2, 16, pystr "    \"\"\" Doc \"\"\"\n"⟩]
      ⟨0, false, true⟩ =
      .ok (pystr "def f():\n    \"\"\"Doc.\"\"\"\n") := by decide

/-- C3: the classifier of `format_code`: a token is rewritten through the
Docstring Transformer iff it is a `STRING` token whose text begins with a
triple-quote delimiter and the previous token was an `INDENT`; every other
token's text is emitted verbatim.  The hypothesis `strip t.string =
t.string` renders the tokenizer guarantee that token text carries no
surrounding whitespace. -/
theorem format_code_classifier (st : St) (t : Token) (opts : Opts)
    (htrim : strip t.string = t.string) :
    (isDocstringTok st t = true ↔
      (t.type = TokenType.STRING ∧
       (pystartswith t.string tripleD = true ∨
        pystartswith t.string tripleS = true) ∧
       st.prevTokenType = some TokenType.INDENT)) ∧
    (isDocstringTok st t = false → bodyOf opts st t = .ok t.string) ∧
    (isDocstringTok st t = true →
      bodyOf opts st t = format_docstring st.prevTokenString t.string opts) := by
  refine ⟨?_, ?_, ?_⟩
  · unfold isDocstringTok starts_with_triple
    rw [htrim]
    simp [Bool.and_eq_true, Bool.or_eq_true, decide_eq_true_eq, and_assoc]
  · intro h; simp [bodyOf, h]
  · intro h; simp [bodyOf, h]

/-- C3 witness: the classifier at a concrete docstring token and the
verbatim emission at a concrete non-docstring token. -/
theorem format_code_classifier_witness :
    strip (pystr "\"\"\"Doc.\"\"\"") = pystr "\"\"\"Doc.\"\"\"" ∧
    isDocstringTok ⟨pystr "    ", some TokenType.INDENT, pystr "    ", 1, 4⟩
      ⟨TokenType.STRING, pystr "\"\"\"Doc.\"\"\"", 2, 4, 2, 14,
       pystr "    \"\"\"Doc.\"\"\"\n"⟩ = true ∧
    bodyOf ⟨0, false, true⟩
      ⟨pystr "x", some TokenType.OTHER, pystr "x\n", 1, 1⟩
      ⟨TokenType.STRING, pystr "\"\"\"s\"\"\"", 2, 0, 2, 7, pystr "\"\"\"s\"\"\"\n"⟩ =
      .ok (pystr "\"\"\"s\"\"\"") :=
  ⟨by decide,
   by decide,
   (format_code_classifier
      ⟨pystr "x", some TokenType.OTHER, pystr "x\n", 1, 1⟩
      ⟨TokenType.STRING, pystr "\"\"\"s\"\"\"", 2, 0, 2, 7, pystr "\"\"\"s\"\"\"\n"⟩
      ⟨0, false, true⟩ (by decide)).2.1 (by decide)⟩

/-- C7 counterexample: the wrap capability does not keep every line within
the wrap length when a single word is longer than the width: a 50-character
word at wrap length 40 is emitted on one 50-column line. -/
theorem wrap_summary_width_counterexample :
    (0 : Int) < 40 ∧
    ¬ (∀ l ∈ splitlines (wrap_summary (List.replicate 50 'a') [] [] 40),
        l.length ≤ 40) := by
  constructor
  · decide
  · decide

/-- C7 (amended): for wrap length greater than 0, indents made of spaces
and tabs, and a summary whose every word fits on a line beside either
indent, every line of the `wrap_summary` output is at most the wrap length
in columns, the word sequence of the output equals the word sequence of the
input, and the output carries no trailing whitespace. -/
theorem wrap_summary_wraps (s ii si : Str) (width : Nat) (hw : 0 < width)
    (hii : ∀ c ∈ ii, c = ' ' ∨ c = '\t') (hsi : ∀ c ∈ si, c = ' ' ∨ c = '\t')
    (hfit : ∀ w ∈ pywords s, ii.length + w.length ≤ width ∧
      si.length + w.length ≤ width) :
    (∀ l ∈ splitlines (wrap_summary s ii si (width : Int)), l.length ≤ width) ∧
    pywords (wrap_summary s ii si (width : Int)) = pywords s ∧
    rstrip (wrap_summary s ii si (width : Int)) =
      wrap_summary s ii si (width : Int) := by
  have hwpos : (0 : Int) < (width : Int) := by exact_mod_cast hw
  have hred : wrap_summary s ii si (width : Int) =
      strip (joinNL (textwrap_wrap s width ii si)) := by
    unfold wrap_summary
    rw [if_pos hwpos]
    simp
  rw [hred]
  cases hpw : pywords s with
  | nil =>
      rw [show textwrap_wrap s width ii si = [] from by
            unfold textwrap_wrap; rw [hpw]]
      rw [show strip (joinNL ([] : List Str)) = [] from by
            simp [joinNL, strip, lstrip, rstrip]]
      refine ⟨by simp [splitlines], ?_, by simp [rstrip]⟩
      rfl
  | cons w0 ws0 =>
      have hmem : ∀ w ∈ pywords s, w ≠ [] ∧ ∀ c ∈ w, isPySpace c = false :=
        fun w hw2 => pywords_mem s [] (by simp) w hw2
      obtain ⟨hw0ne, hw0ns⟩ := hmem w0 (by rw [hpw]; simp)
      have hiisp : ∀ c ∈ ii, isPySpace c = true :=
        fun c hc => (spacetab_space (hii c hc)).1
      have htw : textwrap_wrap s width ii si = wrapWords width si (ii ++ w0) ws0 := by
        unfold textwrap_wrap
        rw [hpw]
      have hcur1 : ii ++ w0 ≠ [] := by simp [hw0ne]
      have hcur2 : ∀ c ∈ ii ++ w0, c ≠ '\n' ∧ c ≠ '\r' := by
        intro c hc
        rcases List.mem_append.mp hc with hc | hc
        · exact (spacetab_space (hii c hc)).2
        · exact nonspace_not_newline (hw0ns c hc)
      have hcur3 : ∃ c, (ii ++ w0).getLast? = some c ∧ isPySpace c = false :=
        ⟨w0.getLast hw0ne,
         by rw [getLast?_append_right ii hw0ne]
            exact List.getLast?_eq_getLast w0 hw0ne,
         hw0ns _ (List.getLast_mem hw0ne)⟩
      have hcur4 : (ii ++ w0).length ≤ width := by
        have h5 := (hfit w0 (by rw [hpw]; simp)).1
        simp only [List.length_append]
        omega
      have hws2 : ∀ w ∈ ws0, (w ≠ [] ∧ ∀ c ∈ w, isPySpace c = false) ∧
          si.length + w.length ≤ width := by
        intro w hw2
        have hmemw : w ∈ pywords s := by rw [hpw]; simp [hw2]
        exact ⟨hmem w hmemw, (hfit w hmemw).2⟩
      obtain ⟨hlines, hjoin, ⟨e, hhead⟩, hlne⟩ :=
        wrapWords_spec width si hsi ws0 (ii ++ w0) hcur1 hcur2 hcur3 hcur4 hws2
      rw [htw]
      obtain ⟨fl, rls, hls⟩ :
          ∃ fl rls, wrapWords width si (ii ++ w0) ws0 = fl :: rls := by
        cases hc : wrapWords width si (ii ++ w0) ws0 with
        | nil => exact absurd hc hlne
        | cons a b => exact ⟨a, b, rfl⟩
      rw [hls] at hlines hjoin hhead ⊢
      have hfl : fl = ii ++ (w0 ++ e) := by
        have h6 : fl = (ii ++ w0) ++ e := by simpa using hhead
        rw [h6, List.append_assoc]
      obtain ⟨llast, hll⟩ : ∃ x, (fl :: rls).getLast? = some x := by
        cases hgl : (fl :: rls).getLast? with
        | none => exact absurd (List.getLast?_eq_none_iff.mp hgl) (by simp)
        | some x => exact ⟨x, rfl⟩
      have hmeml : llast ∈ fl :: rls := by
        obtain ⟨hne2, heq⟩ := List.mem_getLast?_eq_getLast
          (show llast ∈ (fl :: rls).getLast? from by rw [hll]; rfl)
        rw [heq]
        exact List.getLast_mem hne2
      obtain ⟨hllne, _, ⟨c0, hc01, hc02⟩, _⟩ := hlines llast hmeml
      have hjoinlast : (joinNL (fl :: rls)).getLast? = some c0 := by
        rw [joinNL_getLast? (fl :: rls) llast (fun x hx => (hlines x hx).1) hll,
            hc01]
      have hstrip1 : strip (joinNL (fl :: rls)) = lstrip (joinNL (fl :: rls)) := by
        unfold strip
        rw [rstrip_eq_self_of_last_nonspace hjoinlast hc02]
      have hlstrip_gen : ∀ X : Str, lstrip (ii ++ (w0 ++ X)) = w0 ++ X := by
        intro X
        rw [lstrip_allspace_append hiisp]
        cases hw0 : w0 with
        | nil => exact absurd hw0 hw0ne
        | cons wc wrest =>
            rw [List.cons_append]
            exact lstrip_cons_nonspace (hw0ns wc (by rw [hw0]; simp)) _
      have hR : strip (joinNL (fl :: rls)) = joinNL ((w0 ++ e) :: rls) := by
        rw [hstrip1, joinNL_shape fl rls, joinNL_shape (w0 ++ e) rls, hfl]
        generalize (if rls.isEmpty = true then ([] : Str) else '\n' :: joinNL rls) = Y
        rw [List.append_assoc, List.append_assoc]
        exact hlstrip_gen _
      rw [hR]
      obtain ⟨hflne, hflnl, ⟨cf, hcf1, hcf2⟩, hfllen⟩ := hlines fl (by simp)
      have hwe_ne : w0 ++ e ≠ [] := by simp [hw0ne]
      have hwe_nl : ∀ c ∈ w0 ++ e, c ≠ '\n' ∧ c ≠ '\r' := by
        intro c hc
        apply hflnl
        rw [hfl]
        exact List.mem_append_right ii hc
      have hwe_len : (w0 ++ e).length ≤ width := by
        have h7 : fl.length = ii.length + (w0 ++ e).length := by
          rw [hfl]
          simp
        omega
      have hwe_last : (w0 ++ e).getLast? = some cf := by
        rw [hfl] at hcf1
        rwa [getLast?_append_right ii hwe_ne] at hcf1
      have hnew_props : ∀ l ∈ (w0 ++ e) :: rls,
          l ≠ [] ∧ ∀ c ∈ l, c ≠ '\n' ∧ c ≠ '\r' := by
        intro l hl
        rcases List.mem_cons.mp hl with rfl | hl
        · exact ⟨hwe_ne, hwe_nl⟩
        · obtain ⟨x1, x2, _, _⟩ := hlines l (by simp [hl])
          exact ⟨x1, x2⟩
      refine ⟨?_, ?_, ?_⟩
      · rw [splitlines_joinNL _ hnew_props]
        intro l hl
        rcases List.mem_cons.mp hl with rfl | hl
        · exact hwe_len
        · exact (hlines l (by simp [hl])).2.2.2
      · rw [pywords_joinNL, List.map_cons, List.flatten_cons]
        have hpwwe : pywords (w0 ++ e) = pywords fl := by
          rw [hfl, pywords_allspace_append hiisp]
        rw [hpwwe]
        rw [List.map_cons, List.flatten_cons] at hjoin
        rw [hjoin, pywords_allspace_append hiisp w0, pywords_word hw0ne hw0ns]
        simp
      · have hnl_last : ∃ x cx, ((w0 ++ e) :: rls).getLast? = some x ∧
            x.getLast? = some cx ∧ isPySpace cx = false := by
          cases hrls : rls with
          | nil => exact ⟨w0 ++ e, cf, by simp, hwe_last, hcf2⟩
          | cons l2 rls2 =>
              rw [hrls] at hll
              rw [List.getLast?_cons_cons] at hll
              exact ⟨llast, c0, by rw [List.getLast?_cons_cons]; exact hll,
                     hc01, hc02⟩
        obtain ⟨x, cx, hx1, hx2, hx3⟩ := hnl_last
        have h8 : (joinNL ((w0 ++ e) :: rls)).getLast? = some cx := by
          rw [joinNL_getLast? _ x (fun y hy => (hnew_props y hy).1) hx1, hx2]
        exact rstrip_eq_self_of_last_nonspace h8 hx3

/-- C7 witness: a 41-column summary wrapped at width 40 with a 3-space
initial indent: its word sequence is preserved and every output line is
within 40 columns. -/
theorem wrap_summary_wraps_witness :
    (∀ w ∈ pywords (pystr "this summary is long enough to be wrapped"),
      (pystr "   ").length + w.length ≤ 40 ∧ ([] : Str).length + w.length ≤ 40) ∧
    pywords (wrap_summary (pystr "this summary is long enough to be wrapped")
        (pystr "   ") [] ((40 : Nat) : Int)) =
      pywords (pystr "this summary is long enough to be wrapped") ∧
    (∀ l ∈ splitlines (wrap_summary
        (pystr "this summary is long enough to be wrapped")
        (pystr "   ") [] ((40 : Nat) : Int)), l.length ≤ 40) :=
  ⟨by decide,
   (wrap_summary_wraps (pystr "this summary is long enough to be wrapped")
      (pystr "   ") [] 40 (by decide) (by decide) (by decide) (by decide)).2.1,
   (wrap_summary_wraps (pystr "this summary is long enough to be wrapped")
      (pystr "   ") [] 40 (by decide) (by decide) (by decide) (by decide)).1⟩

/-- C8: when the previous line is not a comment line, ends in a
line-continuation backslash (optionally followed by a newline form), and
the token starts on a later row, `format_code` re-emits the trailing
whitespace/backslash segment of the previous line verbatim: the segment is
exactly what `rstrip(' \t\n\r\\')` removed, it still ends in the
backslash-newline sequence, and it is a prefix of the chunk emitted for the
token. -/
theorem escaped_newline_preserved (st : St) (t : Token) (opts : Opts)
    (h1 : pystartswith (lstrip st.prevLine) ['#'] = false)
    (h2 : st.lastRow < t.startRow)
    (h3 : pyendswith st.prevLine (pystr "\\\n") = true ∨
          pyendswith st.prevLine (pystr "\\\r\n") = true ∨
          pyendswith st.prevLine (pystr "\\\r") = true) :
    escGap st t = st.prevLine.drop (rstripSet contChar st.prevLine).length ∧
    rstripSet contChar st.prevLine ++ escGap st t = st.prevLine ∧
    (pyendswith st.prevLine (pystr "\\\n") = true →
      pyendswith (escGap st t) (pystr "\\\n") = true) ∧
    (pyendswith st.prevLine (pystr "\\\r\n") = true →
      pyendswith (escGap st t) (pystr "\\\r\n") = true) ∧
    (pyendswith st.prevLine (pystr "\\\r") = true →
      pyendswith (escGap st t) (pystr "\\\r") = true) ∧
    (∀ out, chunkOf opts st t = .ok out → pystartswith out (escGap st t) = true) := by
  have hcond : (!pystartswith (lstrip st.prevLine) ['#'] &&
      decide (st.lastRow < t.startRow) &&
      (pyendswith st.prevLine (pystr "\\\n") ||
       pyendswith st.prevLine (pystr "\\\r\n") ||
       pyendswith st.prevLine (pystr "\\\r"))) = true := by
    rcases h3 with h | h | h <;> simp [h1, h2, h]
  have hgap : escGap st t =
      st.prevLine.drop (rstripSet contChar st.prevLine).length := by
    unfold escGap
    rw [if_pos hcond]
  refine ⟨hgap, ?_, ?_, ?_, ?_, ?_⟩
  · rw [hgap]; exact rstripSet_append_drop _ _
  · intro h; rw [hgap]; exact endswith_drop_rstripSet (by decide) h
  · intro h; rw [hgap]; exact endswith_drop_rstripSet (by decide) h
  · intro h; rw [hgap]; exact endswith_drop_rstripSet (by decide) h
  · intro out hout
    unfold chunkOf at hout
    cases hb : bodyOf opts st t with
    | error e => rw [hb] at hout; simp [Except.map] at hout
    | ok b =>
        rw [hb] at hout
        simp only [Except.map] at hout
        injection hout with hout
        rw [← hout]
        exact List.isPrefixOf_iff_prefix.mpr
          ⟨spacingGap st t ++ b, by simp [List.append_assoc]⟩

/-- C8 witness: a concrete line `"x = 1 + \\\n"` followed by a token on the
next row has its backslash-newline segment reproduced. -/
theorem escaped_newline_preserved_witness :
    pystartswith (lstrip (pystr "x = 1 + \\\n")) ['#'] = false ∧
    pyendswith
      (escGap ⟨pystr "1", some TokenType.OTHER, pystr "x = 1 + \\\n", 1, 9⟩
        ⟨TokenType.OTHER, pystr "2", 2, 4, 2, 5, pystr "    2\n"⟩)
      (pystr "\\\n") = true :=
  ⟨by decide,
   (escaped_newline_preserved
      ⟨pystr "1", some TokenType.OTHER, pystr "x = 1 + \\\n", 1, 9⟩
      ⟨TokenType.OTHER, pystr "2", 2, 4, 2, 5, pystr "    2\n"⟩
      ⟨0, false, true⟩ (by decide) (by decide)
      (Or.inl (by decide))).2.2.1 (by decide)⟩

/-- C2 witness: a `'''`-quoted docstring whose content holds `\"\"\"` is
returned unchanged. -/
theorem format_docstring_nested_triple_unchanged_witness :
    strip_docstring (tripleS ++ pystr "ab" ++ tripleD ++ pystr "cd" ++ tripleS) =
      .ok (pystr "ab" ++ tripleD ++ pystr "cd") ∧
    format_docstring (pystr "  ")
        (tripleS ++ pystr "ab" ++ tripleD ++ pystr "cd" ++ tripleS)
        ⟨0, false, true⟩ =
      .ok (tripleS ++ pystr "ab" ++ tripleD ++ pystr "cd" ++ tripleS) :=
  ⟨by decide,
   format_docstring_nested_triple_unchanged (pystr "  ")
     (tripleS ++ pystr "ab" ++ tripleD ++ pystr "cd" ++ tripleS)
     ⟨0, false, true⟩ (pystr "ab" ++ tripleD ++ pystr "cd") (by decide)
     ⟨pystr "ab", pystr "cd", by decide⟩⟩

end Docformatter
